import Mathlib

/-!
Verification of the revision resolver and tree-diff engine of turboCommit
(src/jj.rs), as a shallow embedding in Lean.

Modelling conventions, stated once:
* Byte buffers (`&[u8]`, `Vec<u8>`) are `List Nat` with each entry < 256.
* `jj_lib::backend::CommitId` and `ChangeId` are byte lists; `CommitId::hex`
  renders lowercase hex, `ChangeId::reverse_hex` renders jj's reverse-hex
  alphabet (digit value v becomes the character at distance v below 'z').
* Rust `str::to_lowercase` and `char::is_alphanumeric` are modelled on the
  ASCII range (`Char.toLower`, `Char.isAlphanum`); every alphabet the
  resolver compares against (hex, reverse hex) is ASCII.
* `String::from_utf8_lossy` is a UTF-8 decoder emitting U+FFFD for each
  maximal invalid subpart; `str::lines` splits at '\n', strips a '\r'
  immediately before a '\n', and drops a final empty segment.
* Rust loops whose bound is data-dependent are given an explicit fuel
  argument so every definition is structurally recursive and executable;
  the source loops always terminate, and each theorem either supplies
  sufficient fuel or takes the loop's completed result as a hypothesis.
-/

/-- One lowercase hex digit, as produced by `CommitId::hex` (src/jj.rs uses
`commit_id.hex()` from jj_lib, which renders `0-9a-f`). -/
def hexChar (n : Nat) : Char :=
  if n < 10 then Char.ofNat (48 + n) else Char.ofNat (87 + n)

/-- `CommitId::hex`: every byte as two lowercase hex digits. -/
def hexEncode (id : List Nat) : String :=
  String.mk ((id.map (fun b => [hexChar (b / 16), hexChar (b % 16)])).flatten)

/-- jj's reverse-hex digit: value v is the character v places below 'z'
(0 is 'z', 15 is 'k'), the display alphabet of `ChangeId::reverse_hex`. -/
def revHexChar (n : Nat) : Char := Char.ofNat (122 - n)

/-- `ChangeId::reverse_hex`: every byte as two reverse-hex digits. -/
def reverseHex (cid : List Nat) : String :=
  String.mk ((cid.map (fun b => [revHexChar (b / 16), revHexChar (b % 16)])).flatten)

/-- The numeric value of one hex digit, upper or lower case, as accepted by
the hex decoding behind `CommitId::try_from_hex`. -/
def hexVal (c : Char) : Option Nat :=
  if '0' ≤ c ∧ c ≤ '9' then some (c.toNat - 48)
  else if 'a' ≤ c ∧ c ≤ 'f' then some (c.toNat - 87)
  else if 'A' ≤ c ∧ c ≤ 'F' then some (c.toNat - 55)
  else none

/-- `CommitId::try_from_hex` (src/jj.rs line 95): decode an even-length,
well-formed hex string to its bytes; `none` otherwise. No length bound and
no existence check, exactly as in jj_lib. -/
def tryFromHex : List Char → Option (List Nat)
  | [] => some []
  | [_] => none
  | c1 :: c2 :: rest =>
    match hexVal c1, hexVal c2, tryFromHex rest with
    | some h, some l, some bs => some ((16 * h + l) :: bs)
    | _, _, _ => none

/-- Rust `str::to_lowercase`, modelled on the ASCII range. -/
def rustLower (s : String) : String := String.mk (s.data.map Char.toLower)

/-- Rust `str::starts_with`: the pattern's characters are an initial
segment of the string's. -/
def strStartsWith (s p : String) : Bool := p.data.isPrefixOf s.data

/-- Replacement character U+FFFD emitted by `String::from_utf8_lossy`. -/
def replChar : Char := Char.ofNat 0xFFFD

/-- Is the byte a UTF-8 continuation byte. -/
def contByte (b : Nat) : Bool := 0x80 ≤ b && b ≤ 0xBF

/-- Decode one three-byte UTF-8 sequence whose first continuation byte must
lie in `[lo, hi]`; on an invalid subpart, consume its maximal valid run and
yield U+FFFD, as Rust's lossy decoding does. -/
def utf8Three (b lo hi : Nat) (rest : List Nat) : Char × List Nat :=
  match rest with
  | [] => (replChar, [])
  | c1 :: r1 =>
    if lo ≤ c1 && c1 ≤ hi then
      match r1 with
      | [] => (replChar, [])
      | c2 :: r2 =>
        if contByte c2 then
          (Char.ofNat ((b - 0xE0) * 0x1000 + (c1 - 0x80) * 0x40 + (c2 - 0x80)), r2)
        else (replChar, r1)
    else (replChar, rest)

/-- Decode one four-byte UTF-8 sequence whose first continuation byte must
lie in `[lo, hi]`. -/
def utf8Four (b lo hi : Nat) (rest : List Nat) : Char × List Nat :=
  match rest with
  | [] => (replChar, [])
  | c1 :: r1 =>
    if lo ≤ c1 && c1 ≤ hi then
      match r1 with
      | [] => (replChar, [])
      | c2 :: r2 =>
        if contByte c2 then
          match r2 with
          | [] => (replChar, [])
          | c3 :: r3 =>
            if contByte c3 then
              (Char.ofNat ((b - 0xF0) * 0x40000 + (c1 - 0x80) * 0x1000 +
                  (c2 - 0x80) * 0x40 + (c3 - 0x80)), r3)
            else (replChar, r2)
        else (replChar, r1)
    else (replChar, rest)

/-- Decode one UTF-8 scalar starting at byte `b`, remaining input `rest`. -/
def utf8Step (b : Nat) (rest : List Nat) : Char × List Nat :=
  if b < 0x80 then (Char.ofNat b, rest)
  else if 0xC2 ≤ b && b ≤ 0xDF then
    match rest with
    | [] => (replChar, [])
    | c1 :: r1 =>
      if contByte c1 then (Char.ofNat ((b - 0xC0) * 0x40 + (c1 - 0x80)), r1)
      else (replChar, rest)
  else if b = 0xE0 then utf8Three b 0xA0 0xBF rest
  else if 0xE1 ≤ b && b ≤ 0xEC then utf8Three b 0x80 0xBF rest
  else if b = 0xED then utf8Three b 0x80 0x9F rest
  else if 0xEE ≤ b && b ≤ 0xEF then utf8Three b 0x80 0xBF rest
  else if b = 0xF0 then utf8Four b 0x90 0xBF rest
  else if 0xF1 ≤ b && b ≤ 0xF3 then utf8Four b 0x80 0xBF rest
  else if b = 0xF4 then utf8Four b 0x80 0x8F rest
  else (replChar, rest)

/-- Fuelled decoding loop; each step consumes at least one byte, so fuel
equal to the buffer length is always sufficient. -/
def utf8Go : Nat → List Nat → List Char
  | 0, _ => []
  | _ + 1, [] => []
  | fuel + 1, b :: rest =>
    let s := utf8Step b rest
    s.1 :: utf8Go fuel s.2

/-- `String::from_utf8_lossy`. -/
def utf8Lossy (bs : List Nat) : String := String.mk (utf8Go bs.length bs)

/-- Split a character sequence at every '\n'; always at least one (possibly
empty) segment, one more per newline. -/
def splitNl : List Char → List (List Char)
  | [] => [[]]
  | c :: rest =>
    if c = '\n' then [] :: splitNl rest
    else
      match splitNl rest with
      | s :: ss => (c :: s) :: ss
      | [] => [[c]]

/-- Strip one trailing '\r', for a segment that was terminated by '\n'. -/
def stripCr (l : List Char) : List Char :=
  if l.getLast? = some '\r' then l.dropLast else l

/-- Rust `str::lines`: split at '\n', strip a '\r' from every segment that
was terminated by a '\n', drop the final segment when it is empty (a final
line ending is optional and produces no extra line). -/
def rustLines (s : String) : List String :=
  let parts := splitNl s.data
  let body := parts.dropLast.map (fun l => String.mk (stripCr l))
  match parts.getLast? with
  | some last => if last = [] then body else body ++ [String.mk last]
  | none => body

/-- The line sequence of a byte buffer: `String::from_utf8_lossy` followed by
`lines().collect()`, as src/jj.rs does in every diff formatter. -/
def lossyLines (bs : List Nat) : List String := rustLines (utf8Lossy bs)

/-- `BINARY_CHECK_BYTES` (src/jj.rs line 15). -/
def binaryCheckBytes : Nat := 8000

/-- `is_binary_content` (src/jj.rs lines 19-22): a zero byte anywhere in the
first `min(len, 8000)` bytes. -/
def isBinaryContent (content : List Nat) : Bool :=
  (content.take (min content.length binaryCheckBytes)).contains 0

/-- Errors of `validate_revision_id` (src/jj.rs lines 67-86): the empty
string, or a disallowed character. -/
inductive ValidationErr where
  | emptyRevision
  | invalidCharacters
deriving DecidableEq

/-- The character set `validate_revision_id` allows: alphanumeric (modelled
on ASCII), '-', '_', '.', ':'. -/
def isAllowedRevChar (c : Char) : Bool :=
  c.isAlphanum || c == '-' || c == '_' || c == '.' || c == ':'

/-- `validate_revision_id` (src/jj.rs lines 67-86). -/
def validateRevisionId (rev : String) : Except ValidationErr Unit :=
  if rev = "" then Except.error ValidationErr.emptyRevision
  else if !(rev.data.all isAllowedRevChar) then Except.error ValidationErr.invalidCharacters
  else Except.ok ()

/-- `format_addition` (src/jj.rs lines 548-557): a single hunk header
`@@ -0,0 +1,<n> @@` followed by a '+' line for every line of the content. -/
def formatAddition (content : List Nat) : String :=
  let ls := lossyLines content
  "@@ -0,0 +1," ++ toString ls.length ++ " @@\n" ++
    (ls.map (fun l => "+" ++ l ++ "\n")).foldr (fun a b => a ++ b) ""

/-- `format_deletion` (src/jj.rs lines 560-569): a single hunk header
`@@ -1,<n> +0,0 @@` followed by a '-' line for every line of the content. -/
def formatDeletion (content : List Nat) : String :=
  let ls := lossyLines content
  "@@ -1," ++ toString ls.length ++ " +0,0 @@\n" ++
    (ls.map (fun l => "-" ++ l ++ "\n")).foldr (fun a b => a ++ b) ""

/-- The data of one commit as the resolver reads it: its change id (bytes)
and its parent commit ids, i.e. `commit.change_id()` and
`commit.parent_ids()`. -/
structure CommitData where
  changeId : List Nat
  parents : List (List Nat)
deriving DecidableEq

/-- The repository view the resolver traverses: `view.heads()` and the
commit store behind `store.get_commit` (an association list; a missing id
models a failing `get_commit`, which src/jj.rs line 121 silently skips). -/
structure RepoModel where
  heads : List (List Nat)
  store : List (List Nat × CommitData)

/-- `store.get_commit`: first association for the id, if any. -/
def lookupStore : List (List Nat × CommitData) → List Nat → Option CommitData
  | [], _ => none
  | (k, v) :: rest, id => if k = id then some v else lookupStore rest id

/-- The worklist loop of `resolve_revision_to_commit_id` (src/jj.rs lines
99-146).  `tv` is `to_visit` with the head of the list as the top of the
`Vec` (push = cons, `pop` = head); `vis` is the visited set; `ms` is
`commit_matches` in push order.  Fuel bounds the number of iterations;
`none` means the fuel ran out before the loop drained `to_visit`. -/
def resolveSearch (store : List (List Nat × CommitData)) (rl : String) :
    Nat → List (List Nat) → List (List Nat) → List (List Nat) →
    Option (List (List Nat))
  | _, [], _, ms => some ms
  | 0, _ :: _, _, _ => none
  | fuel + 1, id :: tvRest, vis, ms =>
    if id ∈ vis then resolveSearch store rl fuel tvRest vis ms
    else
      let vis' := id :: vis
      match lookupStore store id with
      | none => resolveSearch store rl fuel tvRest vis' ms
      | some c =>
        let ms' :=
          if strStartsWith (rustLower (hexEncode id)) rl then ms ++ [id]
          else if strStartsWith (rustLower (reverseHex c.changeId)) rl then ms ++ [id]
          else ms
        let tv' := c.parents.foldl (fun acc p => if p ∈ vis' then acc else p :: acc) tvRest
        resolveSearch store rl fuel tv' vis' ms'

/-- The search stage of `resolve_revision_to_commit_id`: lower-case the
query once, seed `to_visit` with all heads (the initial visited check at
line 111 is vacuous since `visited` is empty; head iteration order becomes
stack order), and run the worklist loop. -/
def searchFromHeads (repo : RepoModel) (rev : String) (fuel : Nat) :
    Option (List (List Nat)) :=
  resolveSearch repo.store (rustLower rev) fuel repo.heads.reverse [] []

/-- The two errors `resolve_revision_to_commit_id` can produce (src/jj.rs
lines 151-161): no matching commit, or several. -/
inductive ResolveErr where
  | notFound (rev : String)
  | ambiguous (rev : String)
deriving DecidableEq

/-- `resolve_revision_to_commit_id` (src/jj.rs lines 90-162): the
`try_from_hex` fast path, then the prefix search, then the match-count
classification.  The outer `Option` is fuel exhaustion of the embedded
worklist loop. -/
def resolveRevisionToCommitId (repo : RepoModel) (rev : String) (fuel : Nat) :
    Option (Except ResolveErr (List Nat)) :=
  match tryFromHex rev.data with
  | some id => some (Except.ok id)
  | none =>
    match searchFromHeads repo rev fuel with
    | none => none
    | some ms =>
      some (if ms.length = 1 then Except.ok (ms.headD [])
            else if ms.isEmpty then Except.error (ResolveErr.notFound rev)
            else Except.error (ResolveErr.ambiguous rev))

/-- Reachability from the heads along parent edges, through commits the
store can produce: the set the spec's prefix search is meant to cover. -/
inductive Reachable (repo : RepoModel) : List Nat → Prop where
  | head {id} : id ∈ repo.heads → Reachable repo id
  | parent {id c p} : Reachable repo id → lookupStore repo.store id = some c →
      p ∈ c.parents → Reachable repo p

/-- The spec's match condition on a visited commit: its CommitId hex or its
ChangeId display encoding, compared case-insensitively, starts with the
lower-cased query. -/
def matchCond (repo : RepoModel) (rev : String) (id : List Nat) : Prop :=
  ∃ c, lookupStore repo.store id = some c ∧
    (strStartsWith (rustLower (hexEncode id)) (rustLower rev) = true ∨
     strStartsWith (rustLower (reverseHex c.changeId)) (rustLower rev) = true)

/-- Boolean form of the match test the loop body performs on one id. -/
def matchB (store : List (List Nat × CommitData)) (rl : String) (id : List Nat) : Bool :=
  match lookupStore store id with
  | none => false
  | some c =>
    strStartsWith (rustLower (hexEncode id)) rl ||
      strStartsWith (rustLower (reverseHex c.changeId)) rl

/-- `source_lines.get(i).unwrap_or(&"")`: a line sequence indexed with the
empty string out of range. -/
def lineAt (xs : List String) (i : Nat) : String := xs.getD i ""

/-- The inner while loop of `format_unified_diff` (src/jj.rs lines 589-594):
the length of the contiguous mismatch run starting at `i`, bounded by `n`.
Fuel with `n ≤ fuel + i` makes it the exact loop count. -/
def mismatchRun (s t : List String) (n : Nat) : Nat → Nat → Nat
  | 0, _ => 0
  | fuel + 1, i =>
    if i < n ∧ lineAt s i ≠ lineAt t i then mismatchRun s t n fuel (i + 1) + 1 else 0

/-- The hunk header `format!("@@ -{},{} +{},{} @@\n", a, b, c, d)` with its
four fields kept separate, as the source computes them. -/
def hunkHeader4 (a b c d : Nat) : String :=
  "@@ -" ++ toString a ++ "," ++ toString b ++ " +" ++ toString c ++ "," ++
    toString d ++ " @@\n"

/-- The per-index body emission of a hunk (src/jj.rs lines 605-614): a '-'
line when the before-line is non-empty, then a '+' line when the after-line
is non-empty. -/
def lineEmit (s t : List String) (j : Nat) : String :=
  (if lineAt s j ≠ "" then "-" ++ lineAt s j ++ "\n" else "") ++
    (if lineAt t j ≠ "" then "+" ++ lineAt t j ++ "\n" else "")

/-- The hunk body: `lineEmit` for every index of the hunk, in order. -/
def hunkBody (s t : List String) (start len : Nat) : String :=
  ((List.range len).map (fun k => lineEmit s t (start + k))).foldr (fun a b => a ++ b) ""

/-- The outer while loop of `format_unified_diff` (src/jj.rs lines 582-618):
scan from `i`, at each mismatch emit a hunk of length `mismatchRun` and jump
past it.  Fuel with `n ≤ fuel + i` covers the loop. -/
def fudOuter (s t : List String) (n : Nat) : Nat → Nat → String
  | 0, _ => ""
  | fuel + 1, i =>
    if i < n then
      if lineAt s i ≠ lineAt t i then
        let len := mismatchRun s t n (fuel + 1) i
        hunkHeader4 (i + 1) len (i + 1) len ++ hunkBody s t i len ++
          fudOuter s t n fuel (i + len)
      else fudOuter s t n fuel (i + 1)
    else ""

/-- `format_unified_diff` on the two line sequences; the scan bound is
`max(len(before), len(after))` and fuel equal to the bound suffices. -/
def formatUnifiedDiffLines (s t : List String) : String :=
  fudOuter s t (max s.length t.length) (max s.length t.length) 0

/-- `format_unified_diff` (src/jj.rs lines 572-621) on raw contents. -/
def formatUnifiedDiff (src tgt : List Nat) : String :=
  formatUnifiedDiffLines (lossyLines src) (lossyLines tgt)

/-- The hunk list the outer loop walks: each hunk as (start, length).
Mirrors `fudOuter` so the emitted text can be stated hunk by hunk. -/
def specRuns (s t : List String) (n : Nat) : Nat → Nat → List (Nat × Nat)
  | 0, _ => []
  | fuel + 1, i =>
    if i < n then
      if lineAt s i ≠ lineAt t i then
        (i, mismatchRun s t n (fuel + 1) i) ::
          specRuns s t n fuel (i + mismatchRun s t n (fuel + 1) i)
      else specRuns s t n fuel (i + 1)
    else []

/-- The spec's rendering of one hunk: header `@@ -<start+1>,<len>
+<start+1>,<len> @@` with identical start and length on both sides, then the
per-index '-'/'+' lines. -/
def renderRun (s t : List String) (r : Nat × Nat) : String :=
  hunkHeader4 (r.1 + 1) r.2 (r.1 + 1) r.2 ++ hunkBody s t r.1 r.2

/-- Concatenation of rendered strings. -/
def concatStr (l : List String) : String := l.foldr (fun a b => a ++ b) ""

/-- The resolved tree values src/jj.rs distinguishes in its diff match
(lines 405-519): a file blob with its executable bit, or a symlink.  The
content ids index the content store. -/
inductive TreeValue where
  | file (id : Nat) (executable : Bool)
  | symlink (id : Nat)
deriving DecidableEq

/-- `std::mem::discriminant` comparison on the two constructors. -/
def sameKind : TreeValue → TreeValue → Bool
  | TreeValue.file _ _, TreeValue.file _ _ => true
  | TreeValue.symlink _, TreeValue.symlink _ => true
  | _, _ => false

/-- One row of the tree diff: the path and the two `as_resolved()` values;
`none` is an unresolved (conflicted) side, `some none` an absent path. -/
structure DiffEntry where
  path : String
  before : Option (Option TreeValue)
  after : Option (Option TreeValue)

/-- The per-entry formatting of `get_jj_diff` (src/jj.rs lines 405-519):
everything one iteration of the entry loop appends to `diff_result`.
`fileContent` and `symTarget` are the content store reads
(`read_file_content`, `read_symlink`), modelled as total lookups: a failing
read aborts the whole diff in the source and no claim concerns that path. -/
def formatEntry (fileContent : Nat → List Nat) (symTarget : Nat → String)
    (e : DiffEntry) : String :=
  match e.before, e.after with
  | some (some (TreeValue.file sid _)), some none =>
    let content := fileContent sid
    if isBinaryContent content then "Binary file " ++ e.path ++ " deleted\n"
    else
      "diff --git a/" ++ e.path ++ " b/" ++ e.path ++ "\n" ++
        "deleted file mode 100644\n" ++ "--- a/" ++ e.path ++ "\n" ++
        "+++ /dev/null\n" ++ formatDeletion content
  | some none, some (some (TreeValue.file tid _)) =>
    let content := fileContent tid
    if isBinaryContent content then "Binary file " ++ e.path ++ " added\n"
    else
      "diff --git a/" ++ e.path ++ " b/" ++ e.path ++ "\n" ++
        "new file mode 100644\n" ++ "--- /dev/null\n" ++
        "+++ b/" ++ e.path ++ "\n" ++ formatAddition content
  | some (some (TreeValue.file sid sx)), some (some (TreeValue.file tid tx)) =>
    -- the Rust guard `source_id != target_id || source_exec != target_exec`;
    -- when it fails the entry falls through to the final `_ => {}` arm
    if sid ≠ tid ∨ sx ≠ tx then
      let sc := fileContent sid
      let tc := fileContent tid
      if isBinaryContent sc || isBinaryContent tc then
        "Binary file " ++ e.path ++ " modified\n"
      else
        "diff --git a/" ++ e.path ++ " b/" ++ e.path ++ "\n" ++
          (if sx ≠ tx then
            (if tx then "old mode 100644\n" ++ "new mode 100755\n"
             else "old mode 100755\n" ++ "new mode 100644\n")
           else "") ++
          "--- a/" ++ e.path ++ "\n" ++ "+++ b/" ++ e.path ++ "\n" ++
          formatUnifiedDiff sc tc
    else ""
  | some (some (TreeValue.symlink sid)), some (some (TreeValue.symlink tid)) =>
    if sid ≠ tid then
      "diff --git a/" ++ e.path ++ " b/" ++ e.path ++ "\n" ++
        "--- a/" ++ e.path ++ "\n" ++ "+++ b/" ++ e.path ++ "\n" ++
        "@@ -1 +1 @@\n" ++ "-" ++ symTarget sid ++ "\n" ++
        "+" ++ symTarget tid ++ "\n"
    else ""
  | some (some sv), some (some av) =>
    if !(sameKind sv av) then
      "diff --git a/" ++ e.path ++ " b/" ++ e.path ++ "\n" ++
        "--- a/" ++ e.path ++ "\n" ++ "+++ b/" ++ e.path ++ "\n" ++
        "File type changed\n"
    else ""
  | _, _ => ""

/-- The entry loop of `get_jj_diff`: the concatenation of every entry's
formatted output, in stream order. -/
def formatDiffEntries (fileContent : Nat → List Nat) (symTarget : Nat → String)
    (entries : List DiffEntry) : String :=
  concatStr (entries.map (formatEntry fileContent symTarget))

/-- A one-commit repository (commit id 0xAA, change id 0x03, no parents)
used to evaluate the resolver on concrete inputs. -/
def repoOne : RepoModel :=
  ⟨[[0xAA]], [([0xAA], ⟨[0x03], []⟩)]⟩

/-- A two-commit repository whose commit ids share the hex digit 'a' as
first character (0xAA is "aa", 0xA0 is "a0"); both are heads. -/
def repoTwo : RepoModel :=
  ⟨[[0xAA], [0xA0]], [([0xAA], ⟨[0x03], []⟩), ([0xA0], ⟨[0x15], []⟩)]⟩

/-- The root-commit scenario: a single added text file named `file` whose
content is the bytes of "a\nb\n". -/
def addEntryC9 : DiffEntry :=
  ⟨"file", some none, some (some (TreeValue.file 0 false))⟩

/-- Content store for the added-file scenario: every id reads "a\nb\n". -/
def storeC9 : Nat → List Nat := fun _ => [97, 10, 98, 10]

/-- The formatted diff of the added-file scenario. -/
def diffC9 : String := formatDiffEntries storeC9 (fun _ => "") [addEntryC9]

/-- A modification entry between content ids 0 and 1. -/
def modEntryBin : DiffEntry :=
  ⟨"f", some (some (TreeValue.file 0 false)), some (some (TreeValue.file 1 false))⟩

/-- Content store with a zero byte in blob 0 (binary) and plain text in
blob 1. -/
def storeBin : Nat → List Nat := fun n => if n = 0 then [0, 65] else [66]

/-- Decidable equality of `Except` results, for evaluating the resolver on
concrete inputs. -/
instance instDecEqExcept {e a : Type} [DecidableEq e] [DecidableEq a] :
    DecidableEq (Except e a) := fun x y =>
  match x, y with
  | Except.ok v, Except.ok w =>
    if h : v = w then isTrue (by rw [h]) else isFalse (by intro hh; cases hh; exact h rfl)
  | Except.error v, Except.error w =>
    if h : v = w then isTrue (by rw [h]) else isFalse (by intro hh; cases hh; exact h rfl)
  | Except.ok _, Except.error _ => isFalse (by intro hh; cases hh)
  | Except.error _, Except.ok _ => isFalse (by intro hh; cases hh)

/-- A zero byte occurs in `l.take n` exactly when some index below `n` and
below the length holds zero. -/
theorem zeroMemTake : ∀ (l : List Nat) (n : Nat),
    0 ∈ l.take n ↔ ∃ i, i < l.length ∧ i < n ∧ l.getD i 1 = 0 := by
  intro l
  induction l with
  | nil => intro n; simp
  | cons b bs ih =>
    intro n
    cases n with
    | zero => simp
    | succ m =>
      simp only [List.take_succ_cons, List.mem_cons]
      constructor
      · rintro (h | h)
        · exact ⟨0, by simp [h.symm]⟩
        · obtain ⟨i, h1, h2, h3⟩ := (ih m).mp h
          exact ⟨i + 1, by simpa using h1, by omega, by simpa using h3⟩
      · rintro ⟨i, h1, h2, h3⟩
        cases i with
        | zero => left; simpa using h3.symm
        | succ j =>
          right
          exact (ih m).mpr ⟨j, by simpa using h1, by omega, by simpa using h3⟩

/-- C5: `is_binary_content` returns true exactly when a zero byte occurs
within the first 8000 bytes of the buffer; the empty buffer is not binary,
and a buffer whose zero bytes all lie at index 8000 or later is not binary
(that is the right-to-left direction of the equivalence). -/
theorem claim5_binary_detection_iff :
    (∀ content : List Nat,
      isBinaryContent content = true ↔
        ∃ i, i < content.length ∧ i < 8000 ∧ content.getD i 1 = 0) ∧
    isBinaryContent [] = false := by
  refine ⟨fun content => ?_, by decide⟩
  unfold isBinaryContent binaryCheckBytes
  rw [show ((content.take (min content.length 8000)).contains 0 = true) ↔
      0 ∈ content.take (min content.length 8000) from List.elem_iff]
  rw [zeroMemTake]
  constructor
  · rintro ⟨i, h1, h2, h3⟩; exact ⟨i, h1, by omega, h3⟩
  · rintro ⟨i, h1, h2, h3⟩; exact ⟨i, h1, by omega, h3⟩

/-- C10: on content with zero lines, `format_addition` is exactly the hunk
header `@@ -0,0 +1,0 @@` and `format_deletion` exactly `@@ -1,0 +0,0 @@`,
with no '+'/'-' lines: the header is emitted unconditionally. -/
theorem claim10_empty_content_headers (bs : List Nat) (h : lossyLines bs = []) :
    formatAddition bs = "@@ -0,0 +1,0 @@\n" ∧ formatDeletion bs = "@@ -1,0 +0,0 @@\n" := by
  unfold formatAddition formatDeletion
  rw [h]
  constructor <;> decide

/-- Witness for C10 at the empty buffer. -/
theorem claim10_empty_content_headers_wit :
    formatAddition [] = "@@ -0,0 +1,0 @@\n" ∧ formatDeletion [] = "@@ -1,0 +0,0 @@\n" :=
  claim10_empty_content_headers [] (by decide)

/-- C4, counterexample: the query "a|b" contains a character the validator
rejects, yet resolution does not fail with an invalid-syntax error: the
prefix search runs (it consumes fuel: with fuel 0 the loop is still
unfinished) and the result is the not-found error of the search stage. -/
theorem claim4_counterexample :
    validateRevisionId "a|b" = Except.error ValidationErr.invalidCharacters ∧
    resolveRevisionToCommitId repoOne "a|b" 1 =
      some (Except.error (ResolveErr.notFound "a|b")) ∧
    resolveRevisionToCommitId repoOne "a|b" 0 = none := by
  refine ⟨by decide, by decide, by decide⟩

/-- Helper for C1: an even-length string of hex digits decodes, and to half
as many bytes. -/
theorem tryFromHex_total : ∀ (k : Nat) (l : List Char), l.length = 2 * k →
    (∀ c ∈ l, (hexVal c).isSome) → ∃ bs, tryFromHex l = some bs ∧ bs.length = k := by
  intro k
  induction k with
  | zero =>
    intro l hl _
    have : l = [] := List.eq_nil_of_length_eq_zero (by omega)
    subst this
    exact ⟨[], rfl, rfl⟩
  | succ m ih =>
    intro l hl hall
    cases l with
    | nil => simp at hl
    | cons c1 l1 =>
      cases l1 with
      | nil => simp at hl; omega
      | cons c2 rest =>
        obtain ⟨v1, hv1⟩ := Option.isSome_iff_exists.mp (hall c1 (by simp))
        obtain ⟨v2, hv2⟩ := Option.isSome_iff_exists.mp (hall c2 (by simp))
        obtain ⟨bs, hbs, hlen⟩ := ih rest (by simp at hl; omega)
          (fun c hc => hall c (by simp [hc]))
        refine ⟨(16 * v1 + v2) :: bs, ?_, by simp [hlen]⟩
        simp [tryFromHex, hv1, hv2, hbs]

/-- C1: a query that is a full-length well-formed hex CommitId literal
(every character a hex digit, length twice the id's byte length) is decoded
by the fast path and returned directly: the result is `Ok` of the decoded
id for every repository and even with zero traversal fuel, so no graph
traversal and no existence check take place; consequently a query that
reaches the prefix search cannot be such a literal. -/
theorem claim1_full_hex_fast_path (len : Nat) (rev : String)
    (hlen : rev.data.length = 2 * len)
    (hhex : ∀ c ∈ rev.data, (hexVal c).isSome) :
    ∃ id : List Nat, tryFromHex rev.data = some id ∧ id.length = len ∧
      ∀ (repo : RepoModel) (fuel : Nat),
        resolveRevisionToCommitId repo rev fuel = some (Except.ok id) := by
  obtain ⟨id, hid, hl⟩ := tryFromHex_total len rev.data hlen hhex
  refine ⟨id, hid, hl, fun repo fuel => ?_⟩
  unfold resolveRevisionToCommitId
  rw [hid]

/-- Witness for C1: the 2-byte literal "0aFf" resolves to [0x0a, 0xff] on a
repository that does not contain it, with zero fuel. -/
theorem claim1_full_hex_fast_path_wit :
    resolveRevisionToCommitId repoOne "0aFf" 0 = some (Except.ok [10, 255]) := by
  obtain ⟨id, h1, h2, h3⟩ := claim1_full_hex_fast_path 2 "0aFf" (by decide) (by decide)
  have he : id = [10, 255] :=
    Option.some.inj (h1.symm.trans (by decide))
  rw [← he]
  exact h3 repoOne 0

/-- C6: a diff entry whose content is binary produces exactly the one-line
sentinel for its case (deleted / added / modified) and nothing else: no
`diff --git` header, no hunk header, no '+'/'-' lines. -/
theorem claim6_binary_sentinel_only
    (fc : Nat → List Nat) (st : Nat → String)
    (pd pa pm : String) (did aid sid tid : Nat) (dx ax sx tx : Bool)
    (hd : isBinaryContent (fc did) = true)
    (ha : isBinaryContent (fc aid) = true)
    (hg : sid ≠ tid ∨ sx ≠ tx)
    (hm : isBinaryContent (fc sid) = true ∨ isBinaryContent (fc tid) = true) :
    formatEntry fc st ⟨pd, some (some (TreeValue.file did dx)), some none⟩ =
        "Binary file " ++ pd ++ " deleted\n" ∧
    formatEntry fc st ⟨pa, some none, some (some (TreeValue.file aid ax))⟩ =
        "Binary file " ++ pa ++ " added\n" ∧
    formatEntry fc st
        ⟨pm, some (some (TreeValue.file sid sx)), some (some (TreeValue.file tid tx))⟩ =
        "Binary file " ++ pm ++ " modified\n" := by
  have hb : (isBinaryContent (fc sid) || isBinaryContent (fc tid)) = true := by
    rcases hm with h | h <;> simp [h]
  refine ⟨?_, ?_, ?_⟩
  · simp [formatEntry, hd]
  · simp [formatEntry, ha]
  · simp only [formatEntry]
    rw [if_pos hg]
    simp [hb]

/-- Witness for C6 on the concrete binary store. -/
theorem claim6_binary_sentinel_only_wit :
    formatEntry storeBin (fun _ => "")
        ⟨"f", some (some (TreeValue.file 0 false)), some none⟩ =
      "Binary file " ++ "f" ++ " deleted\n" ∧
    formatEntry storeBin (fun _ => "")
        ⟨"f", some none, some (some (TreeValue.file 0 false))⟩ =
      "Binary file " ++ "f" ++ " added\n" ∧
    formatEntry storeBin (fun _ => "")
        ⟨"f", some (some (TreeValue.file 0 false)), some (some (TreeValue.file 1 false))⟩ =
      "Binary file " ++ "f" ++ " modified\n" :=
  claim6_binary_sentinel_only storeBin (fun _ => "") "f" "f" "f" 0 0 0 1
    false false false false (by decide) (by decide) (by decide) (by decide)

/-- C8, counterexample: for a binary modification the formatter emits only
the sentinel line, which does not start with `diff --git`: the claimed
header-then-sentinel order does not happen. -/
theorem claim8_counterexample :
    formatEntry storeBin (fun _ => "") modEntryBin = "Binary file f modified\n" ∧
    strStartsWith "Binary file f modified\n" "diff --git" = false := by
  refine ⟨by decide, by decide⟩

/-- C8, amended: in the modification case the binary check precedes all
header output.  If either side is binary the output is only the sentinel
(no `diff --git` header); otherwise the formatter emits the `diff --git`
header, then the `old mode`/`new mode` pair exactly when the executable bit
differs, then the `---`/`+++` lines, then the line diff. -/
theorem claim8_amended_modification_format
    (fc1 fc2 : Nat → List Nat) (st1 st2 : Nat → String) (p1 p2 : String)
    (s1 t1 s2 t2 : Nat) (sx1 tx1 sx2 tx2 : Bool)
    (hg1 : s1 ≠ t1 ∨ sx1 ≠ tx1)
    (hb1 : (isBinaryContent (fc1 s1) || isBinaryContent (fc1 t1)) = true)
    (hg2 : s2 ≠ t2 ∨ sx2 ≠ tx2)
    (hb2 : (isBinaryContent (fc2 s2) || isBinaryContent (fc2 t2)) = false) :
    formatEntry fc1 st1
        ⟨p1, some (some (TreeValue.file s1 sx1)), some (some (TreeValue.file t1 tx1))⟩ =
      "Binary file " ++ p1 ++ " modified\n" ∧
    formatEntry fc2 st2
        ⟨p2, some (some (TreeValue.file s2 sx2)), some (some (TreeValue.file t2 tx2))⟩ =
      "diff --git a/" ++ p2 ++ " b/" ++ p2 ++ "\n" ++
        (if sx2 ≠ tx2 then
          (if tx2 then "old mode 100644\n" ++ "new mode 100755\n"
           else "old mode 100755\n" ++ "new mode 100644\n")
         else "") ++
        "--- a/" ++ p2 ++ "\n" ++ "+++ b/" ++ p2 ++ "\n" ++
        formatUnifiedDiff (fc2 s2) (fc2 t2) := by
  constructor
  · simp only [formatEntry]
    rw [if_pos hg1]
    simp [hb1]
  · simp only [formatEntry]
    rw [if_pos hg2]
    simp [hb2]

/-- Witness for C8: a binary modification, and a pure executable-bit flip
on identical non-binary content (whose line diff is empty). -/
theorem claim8_amended_modification_format_wit :
    formatEntry storeBin (fun _ => "") modEntryBin = "Binary file f modified\n" ∧
    formatEntry (fun _ => [65]) (fun _ => "")
        ⟨"g", some (some (TreeValue.file 0 false)), some (some (TreeValue.file 0 true))⟩ =
      "diff --git a/g b/g\n" ++ "old mode 100644\n" ++ "new mode 100755\n" ++
        "--- a/g\n" ++ "+++ b/g\n" := by
  have h := claim8_amended_modification_format storeBin (fun _ => [65])
    (fun _ => "") (fun _ => "") "f" "g" 0 1 0 0 false false false true
    (by decide) (by decide) (by decide) (by decide)
  exact ⟨h.1, h.2.trans (by decide)⟩

/-- C9, counterexample: the root commit adding the text file "file" with
content "a\nb\n" produces the hunk header `@@ -0,0 +1,2 @@` as its fifth
line, not the claimed `@@ -0,0 +2 @@`. -/
theorem claim9_counterexample :
    rustLines diffC9 =
      ["diff --git a/file b/file", "new file mode 100644", "--- /dev/null",
        "+++ b/file", "@@ -0,0 +1,2 @@", "+a", "+b"] ∧
    (rustLines diffC9).getD 4 "" ≠ "@@ -0,0 +2 @@" := by
  refine ⟨by decide, by decide⟩

/-- C9, amended: the diff of the added-file scenario is exactly the header
block, the hunk header `@@ -0,0 +1,2 @@`, and the two '+' lines. -/
theorem claim9_amended_added_file_output :
    diffC9 =
      "diff --git a/file b/file\n" ++ "new file mode 100644\n" ++ "--- /dev/null\n" ++
        "+++ b/file\n" ++ "@@ -0,0 +1,2 @@\n" ++ "+a\n" ++ "+b\n" := by
  decide

/-- One unfolding of the inner mismatch loop. -/
theorem mismatchRun_succ (s t : List String) (n fuel i : Nat) :
    mismatchRun s t n (fuel + 1) i =
      if i < n ∧ lineAt s i ≠ lineAt t i then mismatchRun s t n fuel (i + 1) + 1
      else 0 := rfl

/-- The inner loop runs at least once at a mismatch index. -/
theorem mismatchRun_pos (s t : List String) (n fuel i : Nat)
    (h1 : i < n) (h2 : lineAt s i ≠ lineAt t i) :
    1 ≤ mismatchRun s t n (fuel + 1) i := by
  rw [mismatchRun_succ, if_pos ⟨h1, h2⟩]
  omega

/-- Every index inside the counted run is an in-range mismatch. -/
theorem mismatchRun_all (s t : List String) (n : Nat) : ∀ (fuel i j : Nat),
    i ≤ j → j < i + mismatchRun s t n fuel i →
    j < n ∧ lineAt s j ≠ lineAt t j := by
  intro fuel
  induction fuel with
  | zero =>
    intro i j h1 h2
    simp only [mismatchRun] at h2
    omega
  | succ f ih =>
    intro i j h1 h2
    by_cases hc : i < n ∧ lineAt s i ≠ lineAt t i
    · rw [mismatchRun_succ, if_pos hc] at h2
      rcases Nat.eq_or_lt_of_le h1 with he | hl
      · subst he; exact hc
      · exact ih (i + 1) j hl (by omega)
    · rw [mismatchRun_succ, if_neg hc] at h2
      omega

/-- The counted run never runs past the scan bound. -/
theorem mismatchRun_le (s t : List String) (n fuel i : Nat) (h : i ≤ n) :
    i + mismatchRun s t n fuel i ≤ n := by
  rcases Nat.eq_zero_or_pos (mismatchRun s t n fuel i) with h0 | h0
  · omega
  · have := mismatchRun_all s t n fuel i (i + mismatchRun s t n fuel i - 1)
      (by omega) (by omega)
    omega

/-- At the index just past the counted run, either the bound is reached or
the lines agree: the run is maximal to the right. -/
theorem mismatchRun_stop (s t : List String) (n : Nat) : ∀ (fuel i : Nat),
    n ≤ fuel + i → i ≤ n →
    (i + mismatchRun s t n fuel i = n ∨
      lineAt s (i + mismatchRun s t n fuel i) =
        lineAt t (i + mismatchRun s t n fuel i)) := by
  intro fuel
  induction fuel with
  | zero =>
    intro i h1 h2
    left
    simp only [mismatchRun]
    omega
  | succ f ih =>
    intro i h1 h2
    by_cases hc : i < n ∧ lineAt s i ≠ lineAt t i
    · have hrec := ih (i + 1) (by omega) (by omega)
      rw [mismatchRun_succ, if_pos hc]
      have harith : i + (mismatchRun s t n f (i + 1) + 1) =
          (i + 1) + mismatchRun s t n f (i + 1) := by omega
      rw [harith]
      exact hrec
    · rw [mismatchRun_succ, if_neg hc]
      rcases Nat.lt_or_ge i n with hi | hi
      · right
        simp only [Nat.add_zero]
        by_contra hne
        exact hc ⟨hi, hne⟩
      · left; omega

/-- The outer loop's output is hunk by hunk: the concatenation of the
rendering of each run it walks. -/
theorem fudOuter_eq_runs (s t : List String) (n : Nat) : ∀ (fuel i : Nat),
    fudOuter s t n fuel i =
      concatStr ((specRuns s t n fuel i).map (renderRun s t)) := by
  intro fuel
  induction fuel with
  | zero => intro i; simp [fudOuter, specRuns, concatStr]
  | succ f ih =>
    intro i
    simp only [fudOuter, specRuns]
    by_cases hin : i < n
    · rw [if_pos hin, if_pos hin]
      by_cases hm : lineAt s i ≠ lineAt t i
      · rw [if_pos hm, if_pos hm]
        rw [ih]
        simp [renderRun, concatStr]
      · rw [if_neg hm, if_neg hm]
        exact ih (i + 1)
    · rw [if_neg hin, if_neg hin]
      simp [concatStr]

/-- Every run the loop walks is non-empty, in range, made of mismatch
indices only, and maximal to the right. -/
theorem specRuns_props (s t : List String) (n : Nat) : ∀ (fuel i : Nat),
    i ≤ n → n ≤ fuel + i →
    ∀ r ∈ specRuns s t n fuel i,
      1 ≤ r.2 ∧ r.1 + r.2 ≤ n ∧
      (∀ j, r.1 ≤ j → j < r.1 + r.2 → lineAt s j ≠ lineAt t j) ∧
      (r.1 + r.2 = n ∨ lineAt s (r.1 + r.2) = lineAt t (r.1 + r.2)) := by
  intro fuel
  induction fuel with
  | zero => intro i h1 h2; simp [specRuns]
  | succ f ih =>
    intro i h1 h2 r hr
    simp only [specRuns] at hr
    by_cases hin : i < n
    · rw [if_pos hin] at hr
      by_cases hm : lineAt s i ≠ lineAt t i
      · rw [if_pos hm] at hr
        rcases List.mem_cons.mp hr with he | ht
        · subst he
          exact ⟨mismatchRun_pos s t n f i hin hm,
            mismatchRun_le s t n (f + 1) i (by omega),
            fun j hj1 hj2 => (mismatchRun_all s t n (f + 1) i j hj1 hj2).2,
            mismatchRun_stop s t n (f + 1) i (by omega) (by omega)⟩
        · have hpos := mismatchRun_pos s t n f i hin hm
          exact ih (i + mismatchRun s t n (f + 1) i)
            (mismatchRun_le s t n (f + 1) i (by omega)) (by omega) r ht
      · rw [if_neg hm] at hr
        exact ih (i + 1) (by omega) (by omega) r hr
    · rw [if_neg hin] at hr
      simp at hr

/-- Every run the loop walks is maximal to the left: it starts at index 0
or just after an index where the lines agree. -/
theorem specRuns_leftmax (s t : List String) (n : Nat) : ∀ (fuel i : Nat),
    (i = 0 ∨ lineAt s (i - 1) = lineAt t (i - 1) ∨ n ≤ i ∨ lineAt s i = lineAt t i) →
    i ≤ n → n ≤ fuel + i →
    ∀ r ∈ specRuns s t n fuel i,
      r.1 = 0 ∨ lineAt s (r.1 - 1) = lineAt t (r.1 - 1) := by
  intro fuel
  induction fuel with
  | zero => intro i _ _ _; simp [specRuns]
  | succ f ih =>
    intro i hleft h1 h2 r hr
    simp only [specRuns] at hr
    by_cases hin : i < n
    · rw [if_pos hin] at hr
      by_cases hm : lineAt s i ≠ lineAt t i
      · rw [if_pos hm] at hr
        rcases List.mem_cons.mp hr with he | ht
        · subst he
          rcases hleft with h | h | h | h
          · left; simpa using h
          · right; simpa using h
          · omega
          · exact absurd h hm
        · have hpos := mismatchRun_pos s t n f i hin hm
          have hle := mismatchRun_le s t n (f + 1) i (by omega)
          refine ih (i + mismatchRun s t n (f + 1) i) ?_ (by omega) (by omega) r ht
          rcases mismatchRun_stop s t n (f + 1) i (by omega) (by omega) with h | h
          · right; right; left; omega
          · right; right; right; exact h
      · rw [if_neg hm] at hr
        refine ih (i + 1) ?_ (by omega) (by omega) r hr
        right; left
        simpa using not_not.mp hm
    · rw [if_neg hin] at hr
      simp at hr

/-- Every in-range mismatch index is covered by one of the walked runs. -/
theorem specRuns_cover (s t : List String) (n : Nat) : ∀ (fuel i j : Nat),
    n ≤ fuel + i → i ≤ j → j < n → lineAt s j ≠ lineAt t j →
    ∃ r, r ∈ specRuns s t n fuel i ∧ r.1 ≤ j ∧ j < r.1 + r.2 := by
  intro fuel
  induction fuel with
  | zero => intro i j h1 h2 h3 _; omega
  | succ f ih =>
    intro i j h1 h2 h3 hj
    have hin : i < n := by omega
    simp only [specRuns]
    rw [if_pos hin]
    by_cases hm : lineAt s i ≠ lineAt t i
    · rw [if_pos hm]
      by_cases hjin : j < i + mismatchRun s t n (f + 1) i
      · exact ⟨(i, mismatchRun s t n (f + 1) i), List.mem_cons_self _ _, h2, hjin⟩
      · have hpos := mismatchRun_pos s t n f i hin hm
        obtain ⟨r, hr, hr1, hr2⟩ := ih (i + mismatchRun s t n (f + 1) i) j
          (by omega) (by omega) h3 hj
        exact ⟨r, List.mem_cons_of_mem _ hr, hr1, hr2⟩
    · rw [if_neg hm]
      have hij : i ≠ j := by
        rintro rfl
        exact hj (not_not.mp hm)
      obtain ⟨r, hr, hr1, hr2⟩ := ih (i + 1) j (by omega) (by omega) h3 hj
      exact ⟨r, hr, hr1, hr2⟩

/-- C7: `format_unified_diff` scans indices 0 to max(len(before),
len(after)) with out-of-range lines read as "", and its output is exactly
the concatenation, hunk by hunk, of a header `@@ -<start+1>,<len>
+<start+1>,<len> @@` (identical start and length on both sides) followed by
the per-index '-'/'+' lines ('-' for a non-empty before-line, then '+' for
a non-empty after-line); the walked hunks are exactly the maximal runs of
mismatch indices (non-empty, all-mismatch, maximal on both sides, and
jointly covering every mismatch index), and nothing is emitted outside
them: no context lines. -/
theorem claim7_line_diff_hunks (s t : List String) :
    formatUnifiedDiffLines s t =
      concatStr ((specRuns s t (max s.length t.length) (max s.length t.length) 0).map
        (renderRun s t)) ∧
    (∀ r ∈ specRuns s t (max s.length t.length) (max s.length t.length) 0,
        1 ≤ r.2 ∧ r.1 + r.2 ≤ max s.length t.length ∧
        (∀ j, r.1 ≤ j → j < r.1 + r.2 → lineAt s j ≠ lineAt t j) ∧
        (r.1 = 0 ∨ lineAt s (r.1 - 1) = lineAt t (r.1 - 1)) ∧
        (r.1 + r.2 = max s.length t.length ∨
          lineAt s (r.1 + r.2) = lineAt t (r.1 + r.2))) ∧
    (∀ j, j < max s.length t.length → lineAt s j ≠ lineAt t j →
        ∃ r, r ∈ specRuns s t (max s.length t.length) (max s.length t.length) 0 ∧
          r.1 ≤ j ∧ j < r.1 + r.2) := by
  refine ⟨fudOuter_eq_runs s t _ _ 0, fun r hr => ?_,
    fun j h1 h2 => specRuns_cover s t _ _ 0 j (by omega) (by omega) h1 h2⟩
  obtain ⟨a, b, c, d⟩ := specRuns_props s t _ _ 0 (by omega) (by omega) r hr
  exact ⟨a, b, c, specRuns_leftmax s t _ _ 0 (Or.inl rfl) (by omega) (by omega) r hr, d⟩

/-- Membership in the parent-push fold of the loop body: an id is in the
new worklist exactly when it was already there or is an unvisited parent. -/
theorem foldlPush_mem (vis' : List (List Nat)) :
    ∀ (ps acc : List (List Nat)) (x : List Nat),
      x ∈ ps.foldl (fun a p => if p ∈ vis' then a else p :: a) acc ↔
        x ∈ acc ∨ (x ∈ ps ∧ x ∉ vis') := by
  intro ps
  induction ps with
  | nil => intro acc x; simp
  | cons p ps ih =>
    intro acc x
    simp only [List.foldl_cons]
    rw [ih]
    by_cases hp : p ∈ vis'
    · rw [if_pos hp]
      constructor
      · rintro (h | h)
        · exact Or.inl h
        · exact Or.inr ⟨List.mem_cons_of_mem _ h.1, h.2⟩
      · rintro (h | ⟨h1, h2⟩)
        · exact Or.inl h
        · rcases List.mem_cons.mp h1 with rfl | h1
          · exact absurd hp h2
          · exact Or.inr ⟨h1, h2⟩
    · rw [if_neg hp]
      constructor
      · rintro (h | h)
        · rcases List.mem_cons.mp h with rfl | h
          · exact Or.inr ⟨List.mem_cons_self _ _, hp⟩
          · exact Or.inl h
        · exact Or.inr ⟨List.mem_cons_of_mem _ h.1, h.2⟩
      · rintro (h | ⟨h1, h2⟩)
        · exact Or.inl (List.mem_cons_of_mem _ h)
        · rcases List.mem_cons.mp h1 with rfl | h1
          · exact Or.inl (List.mem_cons_self _ _)
          · exact Or.inr ⟨h1, h2⟩

/-- Invariant lemma for the worklist loop.  `R` is any property that holds
on the initial worklist and is closed under parent edges (reachability at
the top call).  If the loop drains the worklist within the given fuel, some
final visited set `visF` extends the current one, absorbs the worklist, is
closed under parent edges, satisfies `R`, and the collected matches are
exactly its members passing the match test, without duplicates. -/
theorem searchRun (store : List (List Nat × CommitData)) (rl : String)
    (R : List Nat → Prop)
    (hR : ∀ id c p, R id → lookupStore store id = some c → p ∈ c.parents → R p) :
    ∀ (fuel : Nat) (tv vis ms res : List (List Nat)),
      resolveSearch store rl fuel tv vis ms = some res →
      (∀ id ∈ tv, R id) →
      (∀ id ∈ vis, R id) →
      ms.Nodup →
      (∀ id ∈ ms, id ∈ vis) →
      (∀ id ∈ ms, matchB store rl id = true) →
      (∀ id ∈ vis, matchB store rl id = true → id ∈ ms) →
      (∀ id ∈ vis, ∀ c, lookupStore store id = some c →
        ∀ p ∈ c.parents, p ∈ vis ∨ p ∈ tv) →
      ∃ visF : List (List Nat),
        (∀ id ∈ vis, id ∈ visF) ∧
        (∀ id ∈ tv, id ∈ visF) ∧
        (∀ id ∈ visF, R id) ∧
        (∀ id ∈ visF, ∀ c, lookupStore store id = some c →
          ∀ p ∈ c.parents, p ∈ visF) ∧
        res.Nodup ∧
        (∀ id, id ∈ res ↔ (id ∈ visF ∧ matchB store rl id = true)) := by
  intro fuel
  induction fuel with
  | zero =>
    intro tv vis ms res hrun htv hvis hnd hmv hmm hvm hcl
    cases tv with
    | nil =>
      simp only [resolveSearch, Option.some.injEq] at hrun
      subst hrun
      refine ⟨vis, fun id h => h, by simp, hvis, ?_, hnd,
        fun id => ⟨fun h => ⟨hmv id h, hmm id h⟩, fun h => hvm id h.1 h.2⟩⟩
      intro id hid c hc p hp
      rcases hcl id hid c hc p hp with h | h
      · exact h
      · simp at h
    | cons a tvR => simp [resolveSearch] at hrun
  | succ f ih =>
    intro tv vis ms res hrun htv hvis hnd hmv hmm hvm hcl
    cases tv with
    | nil =>
      simp only [resolveSearch, Option.some.injEq] at hrun
      subst hrun
      refine ⟨vis, fun id h => h, by simp, hvis, ?_, hnd,
        fun id => ⟨fun h => ⟨hmv id h, hmm id h⟩, fun h => hvm id h.1 h.2⟩⟩
      intro id hid c hc p hp
      rcases hcl id hid c hc p hp with h | h
      · exact h
      · simp at h
    | cons id tvR =>
      simp only [resolveSearch] at hrun
      by_cases hmem : id ∈ vis
      · rw [if_pos hmem] at hrun
        have hcl2 : ∀ x ∈ vis, ∀ c, lookupStore store x = some c →
            ∀ p ∈ c.parents, p ∈ vis ∨ p ∈ tvR := by
          intro x hx c hc p hp
          rcases hcl x hx c hc p hp with h | h
          · exact Or.inl h
          · rcases List.mem_cons.mp h with rfl | h
            · exact Or.inl hmem
            · exact Or.inr h
        obtain ⟨visF, h1, h2, h3, h4, h5, h6⟩ :=
          ih tvR vis ms res hrun (fun x hx => htv x (List.mem_cons_of_mem _ hx))
            hvis hnd hmv hmm hvm hcl2
        refine ⟨visF, h1, ?_, h3, h4, h5, h6⟩
        intro x hx
        rcases List.mem_cons.mp hx with rfl | hx
        · exact h1 x hmem
        · exact h2 x hx
      · rw [if_neg hmem] at hrun
        have htvid : R id := htv id (List.mem_cons_self _ _)
        have hvis2 : ∀ x ∈ id :: vis, R x := by
          intro x hx
          rcases List.mem_cons.mp hx with rfl | hx
          · exact htvid
          · exact hvis x hx
        split at hrun
        · -- `get_commit` failed: the id is skipped with no parents pushed
          rename_i hlook
          have hmB : matchB store rl id = false := by simp [matchB, hlook]
          have hvm2 : ∀ x ∈ id :: vis, matchB store rl x = true → x ∈ ms := by
            intro x hx hmx
            rcases List.mem_cons.mp hx with rfl | hx
            · rw [hmB] at hmx; cases hmx
            · exact hvm x hx hmx
          have hcl2 : ∀ x ∈ id :: vis, ∀ c2, lookupStore store x = some c2 →
              ∀ p ∈ c2.parents, p ∈ id :: vis ∨ p ∈ tvR := by
            intro x hx c2 hc2 p hp
            rcases List.mem_cons.mp hx with rfl | hx
            · rw [hlook] at hc2; cases hc2
            · rcases hcl x hx c2 hc2 p hp with h | h
              · exact Or.inl (List.mem_cons_of_mem _ h)
              · rcases List.mem_cons.mp h with rfl | h
                · exact Or.inl (List.mem_cons_self _ _)
                · exact Or.inr h
          obtain ⟨visF, h1, h2, h3, h4, h5, h6⟩ :=
            ih tvR (id :: vis) ms res hrun
              (fun x hx => htv x (List.mem_cons_of_mem _ hx))
              hvis2 hnd
              (fun x hx => List.mem_cons_of_mem _ (hmv x hx))
              hmm hvm2 hcl2
          refine ⟨visF, fun x hx => h1 x (List.mem_cons_of_mem _ hx), ?_, h3, h4, h5, h6⟩
          intro x hx
          rcases List.mem_cons.mp hx with rfl | hx
          · exact h1 x (List.mem_cons_self _ _)
          · exact h2 x hx
        · -- the commit was fetched: match test and parent pushes
          rename_i c hlook
          have hmBval : matchB store rl id =
              (strStartsWith (rustLower (hexEncode id)) rl ||
                strStartsWith (rustLower (reverseHex c.changeId)) rl) := by
            simp [matchB, hlook]
          have hms' :
              (if strStartsWith (rustLower (hexEncode id)) rl = true then ms ++ [id]
               else if strStartsWith (rustLower (reverseHex c.changeId)) rl = true then
                 ms ++ [id]
               else ms) =
              (if matchB store rl id = true then ms ++ [id] else ms) := by
            by_cases hA : strStartsWith (rustLower (hexEncode id)) rl = true <;>
              by_cases hB : strStartsWith (rustLower (reverseHex c.changeId)) rl = true <;>
                simp [hmBval, hA, hB]
          rw [hms'] at hrun
          have htv2 : ∀ x ∈ c.parents.foldl
              (fun acc p => if p ∈ id :: vis then acc else p :: acc) tvR, R x := by
            intro x hx
            rcases (foldlPush_mem (id :: vis) c.parents tvR x).mp hx with h | h
            · exact htv x (List.mem_cons_of_mem _ h)
            · exact hR id c x htvid hlook h.1
          have hcl2 : ∀ x ∈ id :: vis, ∀ c2, lookupStore store x = some c2 →
              ∀ p ∈ c2.parents, p ∈ id :: vis ∨
                p ∈ c.parents.foldl
                  (fun acc p => if p ∈ id :: vis then acc else p :: acc) tvR := by
            intro x hx c2 hc2 p hp
            rcases List.mem_cons.mp hx with heq | hx
            · have hceq : c2 = c := by
                rw [heq, hlook] at hc2
                exact (Option.some.inj hc2).symm
              rw [hceq] at hp
              by_cases hpv : p ∈ id :: vis
              · exact Or.inl hpv
              · exact Or.inr ((foldlPush_mem (id :: vis) c.parents tvR p).mpr
                  (Or.inr ⟨hp, hpv⟩))
            · rcases hcl x hx c2 hc2 p hp with h | h
              · exact Or.inl (List.mem_cons_of_mem _ h)
              · rcases List.mem_cons.mp h with heq2 | h
                · exact Or.inl (by rw [heq2]; exact List.mem_cons_self _ _)
                · exact Or.inr ((foldlPush_mem (id :: vis) c.parents tvR p).mpr
                    (Or.inl h))
          by_cases hmatch : matchB store rl id = true
          · rw [if_pos hmatch] at hrun
            have hnd2 : (ms ++ [id]).Nodup := by
              rw [List.nodup_append]
              refine ⟨hnd, List.nodup_singleton _, ?_⟩
              intro x hx hy
              rw [List.mem_singleton] at hy
              subst hy
              exact hmem (hmv x hx)
            have hmv2 : ∀ x ∈ ms ++ [id], x ∈ id :: vis := by
              intro x hx
              rcases List.mem_append.mp hx with h | h
              · exact List.mem_cons_of_mem _ (hmv x h)
              · rw [List.mem_singleton] at h
                subst h
                exact List.mem_cons_self _ _
            have hmm2 : ∀ x ∈ ms ++ [id], matchB store rl x = true := by
              intro x hx
              rcases List.mem_append.mp hx with h | h
              · exact hmm x h
              · rw [List.mem_singleton] at h
                subst h
                exact hmatch
            have hvm2 : ∀ x ∈ id :: vis, matchB store rl x = true → x ∈ ms ++ [id] := by
              intro x hx hmx
              rcases List.mem_cons.mp hx with rfl | hx
              · exact List.mem_append.mpr (Or.inr (List.mem_singleton.mpr rfl))
              · exact List.mem_append.mpr (Or.inl (hvm x hx hmx))
            obtain ⟨visF, h1, h2, h3, h4, h5, h6⟩ :=
              ih _ (id :: vis) (ms ++ [id]) res hrun htv2 hvis2 hnd2 hmv2 hmm2 hvm2 hcl2
            refine ⟨visF, fun x hx => h1 x (List.mem_cons_of_mem _ hx), ?_, h3, h4, h5, h6⟩
            intro x hx
            rcases List.mem_cons.mp hx with rfl | hx
            · exact h1 x (List.mem_cons_self _ _)
            · exact h2 x ((foldlPush_mem (id :: vis) c.parents tvR x).mpr (Or.inl hx))
          · rw [if_neg hmatch] at hrun
            have hvm2 : ∀ x ∈ id :: vis, matchB store rl x = true → x ∈ ms := by
              intro x hx hmx
              rcases List.mem_cons.mp hx with rfl | hx
              · exact absurd hmx hmatch
              · exact hvm x hx hmx
            obtain ⟨visF, h1, h2, h3, h4, h5, h6⟩ :=
              ih _ (id :: vis) ms res hrun htv2 hvis2 hnd
                (fun x hx => List.mem_cons_of_mem _ (hmv x hx)) hmm hvm2 hcl2
            refine ⟨visF, fun x hx => h1 x (List.mem_cons_of_mem _ hx), ?_, h3, h4, h5, h6⟩
            intro x hx
            rcases List.mem_cons.mp hx with rfl | hx
            · exact h1 x (List.mem_cons_self _ _)
            · exact h2 x ((foldlPush_mem (id :: vis) c.parents tvR x).mpr (Or.inl hx))

/-- A completed search from the heads collects, without duplicates, exactly
the reachable commits passing the match test. -/
theorem searchFromHeads_char (repo : RepoModel) (rev : String) (fuel : Nat)
    (ms : List (List Nat)) (h : searchFromHeads repo rev fuel = some ms) :
    ms.Nodup ∧
    ∀ id, id ∈ ms ↔ (Reachable repo id ∧ matchB repo.store (rustLower rev) id = true) := by
  obtain ⟨visF, h1, h2, h3, h4, h5, h6⟩ :=
    searchRun repo.store (rustLower rev) (Reachable repo)
      (fun id c p hid hc hp => Reachable.parent hid hc hp)
      fuel repo.heads.reverse [] [] ms h
      (fun id hid => Reachable.head (List.mem_reverse.mp hid))
      (by simp) List.nodup_nil (by simp) (by simp) (by simp) (by simp)
  have hiff : ∀ id, id ∈ visF ↔ Reachable repo id := by
    intro id
    constructor
    · exact h3 id
    · intro hreach
      induction hreach with
      | head hh => exact h2 _ (List.mem_reverse.mpr hh)
      | parent hre hc hp ihr => exact h4 _ ihr _ hc _ hp
  exact ⟨h5, fun id => (h6 id).trans (and_congr (hiff id) Iff.rfl)⟩

/-- The Boolean match test of the loop body agrees with the spec's match
condition. -/
theorem matchB_iff_matchCond (repo : RepoModel) (rev : String) (id : List Nat) :
    matchB repo.store (rustLower rev) id = true ↔ matchCond repo rev id := by
  unfold matchB matchCond
  rcases h : lookupStore repo.store id with _ | c
  · simp
  · simp [h]

/-- C3: when a non-hex query reaches the prefix search and the search
completes, the collected matches are exactly the commits reachable from
the heads along parent edges whose CommitId hex or ChangeId display
encoding, compared case-insensitively, starts with the lower-cased query —
each counted at most once (the visited set makes the list duplicate-free). -/
theorem claim3_search_characterization (repo : RepoModel) (rev : String) (fuel : Nat)
    (ms : List (List Nat))
    (hfast : tryFromHex rev.data = none)
    (hrun : searchFromHeads repo rev fuel = some ms) :
    ms.Nodup ∧ ∀ id, id ∈ ms ↔ (Reachable repo id ∧ matchCond repo rev id) := by
  obtain ⟨h1, h2⟩ := searchFromHeads_char repo rev fuel ms hrun
  exact ⟨h1, fun id =>
    (h2 id).trans (and_congr Iff.rfl (matchB_iff_matchCond repo rev id))⟩

/-- Witness for C3 on the one-commit repository, with an upper-case query
exercising the case-insensitive comparison. -/
theorem claim3_search_characterization_wit :
    List.Nodup [[170]] ∧
    ∀ id, id ∈ [[170]] ↔ (Reachable repoOne id ∧ matchCond repoOne "A" id) :=
  claim3_search_characterization repoOne "A" 1 [[170]] (by decide) (by decide)

/-- C2: for queries that reach the prefix search and whose search
completes, the match-count classification: exactly one collected match is
returned as `Ok`; zero matches fail with the not-found error; two or more
matches fail with the ambiguity error and never return `Ok` with any
candidate. -/
theorem claim2_match_count_classification
    (r1 r2 r3 : RepoModel) (q1 q2 q3 : String) (f1 f2 f3 : Nat)
    (m : List Nat) (ms3 : List (List Nat))
    (h1a : tryFromHex q1.data = none) (h1b : searchFromHeads r1 q1 f1 = some [m])
    (h2a : tryFromHex q2.data = none) (h2b : searchFromHeads r2 q2 f2 = some [])
    (h3a : tryFromHex q3.data = none) (h3b : searchFromHeads r3 q3 f3 = some ms3)
    (h3c : 2 ≤ ms3.length) :
    resolveRevisionToCommitId r1 q1 f1 = some (Except.ok m) ∧
    resolveRevisionToCommitId r2 q2 f2 = some (Except.error (ResolveErr.notFound q2)) ∧
    resolveRevisionToCommitId r3 q3 f3 = some (Except.error (ResolveErr.ambiguous q3)) ∧
    ∀ mm, resolveRevisionToCommitId r3 q3 f3 ≠ some (Except.ok mm) := by
  have h3 : resolveRevisionToCommitId r3 q3 f3 =
      some (Except.error (ResolveErr.ambiguous q3)) := by
    unfold resolveRevisionToCommitId
    rw [h3a, h3b]
    have hl1 : ms3.length ≠ 1 := by omega
    have hne : ms3.isEmpty = false := by
      cases ms3 with
      | nil => simp at h3c
      | cons a l => simp
    simp [hl1, hne]
  refine ⟨?_, ?_, h3, fun mm hcon => ?_⟩
  · unfold resolveRevisionToCommitId
    rw [h1a, h1b]
    simp
  · unfold resolveRevisionToCommitId
    rw [h2a, h2b]
    simp
  · rw [h3] at hcon
    simp at hcon

/-- Witness for C2: the unique, empty, and ambiguous cases on the concrete
one- and two-commit repositories. -/
theorem claim2_match_count_classification_wit :
    resolveRevisionToCommitId repoOne "A" 1 = some (Except.ok [170]) ∧
    resolveRevisionToCommitId repoOne "q" 1 =
      some (Except.error (ResolveErr.notFound "q")) ∧
    resolveRevisionToCommitId repoTwo "a" 2 =
      some (Except.error (ResolveErr.ambiguous "a")) ∧
    ∀ mm, resolveRevisionToCommitId repoTwo "a" 2 ≠ some (Except.ok mm) :=
  claim2_match_count_classification repoOne repoOne repoTwo "A" "q" "a" 1 1 2
    [170] [[160], [170]] (by decide) (by decide) (by decide) (by decide)
    (by decide) (by decide) (by decide)

/-- A character the hex decoder accepts is alphanumeric, hence allowed by
the validator: the allowed set strictly contains the hex digits. -/
theorem hexVal_isSome_allowed (c : Char) (h : (hexVal c).isSome = true) :
    isAllowedRevChar c = true := by
  unfold hexVal at h
  by_cases h1 : '0' ≤ c ∧ c ≤ '9'
  · have hd : c.isDigit = true := by
      simp only [Char.isDigit, Bool.and_eq_true, decide_eq_true_eq]
      exact ⟨Char.le_def.mp h1.1, Char.le_def.mp h1.2⟩
    simp [isAllowedRevChar, Char.isAlphanum, hd]
  · rw [if_neg h1] at h
    by_cases h2 : 'a' ≤ c ∧ c ≤ 'f'
    · have hl : c.isLower = true := by
        simp only [Char.isLower, Bool.and_eq_true, decide_eq_true_eq]
        have n1 : (97 : Nat) ≤ c.toNat := Char.le_def.mp h2.1
        have n2 : c.toNat ≤ (102 : Nat) := Char.le_def.mp h2.2
        exact ⟨n1, (by omega : c.toNat ≤ (122 : Nat))⟩
      simp [isAllowedRevChar, Char.isAlphanum, Char.isAlpha, hl]
    · rw [if_neg h2] at h
      by_cases h3 : 'A' ≤ c ∧ c ≤ 'F'
      · have hu : c.isUpper = true := by
          simp only [Char.isUpper, Bool.and_eq_true, decide_eq_true_eq]
          have n1 : (65 : Nat) ≤ c.toNat := Char.le_def.mp h3.1
          have n2 : c.toNat ≤ (70 : Nat) := Char.le_def.mp h3.2
          exact ⟨n1, (by omega : c.toNat ≤ (90 : Nat))⟩
        simp [isAllowedRevChar, Char.isAlphanum, Char.isAlpha, hu]
      · rw [if_neg h3] at h
        simp at h

/-- A character the validator rejects is rejected by the hex decoder. -/
theorem hexVal_none_of_not_allowed (c : Char) (h : isAllowedRevChar c = false) :
    hexVal c = none := by
  rcases hv : hexVal c with _ | v
  · rfl
  · have := hexVal_isSome_allowed c (by rw [hv]; rfl)
    rw [h] at this
    cases this

/-- A string containing a character the hex decoder rejects never
decodes. -/
theorem tryFromHex_none_of_bad : ∀ (l : List Char),
    (∃ c ∈ l, hexVal c = none) → tryFromHex l = none
  | [], h => by
    obtain ⟨c, hc, _⟩ := h
    exact absurd hc (List.not_mem_nil c)
  | [_], _ => rfl
  | c1 :: c2 :: rest, h => by
    obtain ⟨c, hc, hcv⟩ := h
    rcases hv1 : hexVal c1 with _ | v1
    · simp [tryFromHex, hv1]
    rcases hv2 : hexVal c2 with _ | v2
    · simp [tryFromHex, hv1, hv2]
    rcases hv3 : tryFromHex rest with _ | bs
    · simp [tryFromHex, hv1, hv2, hv3]
    · exfalso
      rcases List.mem_cons.mp hc with rfl | hc
      · rw [hcv] at hv1; cases hv1
      rcases List.mem_cons.mp hc with rfl | hc
      · rw [hcv] at hv2; cases hv2
      · rw [tryFromHex_none_of_bad rest ⟨c, hc, hcv⟩] at hv3
        cases hv3

/-- Lower-casing never turns a disallowed character into an allowed one:
`toLower` only moves the (allowed) upper-case letters. -/
theorem toLower_not_allowed (c : Char) (h : isAllowedRevChar c = false) :
    isAllowedRevChar (Char.toLower c) = false := by
  unfold Char.toLower
  by_cases hc : c.toNat ≥ 65 ∧ c.toNat ≤ 90
  · exfalso
    have hu : c.isUpper = true := by
      simp only [Char.isUpper, Bool.and_eq_true, decide_eq_true_eq]
      exact ⟨hc.1, hc.2⟩
    have : isAllowedRevChar c = true := by
      simp [isAllowedRevChar, Char.isAlphanum, Char.isAlpha, hu]
    rw [h] at this
    cases this
  · rw [if_neg hc]
    exact h

/-- Every lower-cased hex display digit is an allowed character. -/
theorem hexChar_lower_allowed (n : Nat) (h : n < 16) :
    isAllowedRevChar (Char.toLower (hexChar n)) = true := by
  interval_cases n <;> decide

/-- Every lower-cased reverse-hex display digit is an allowed character. -/
theorem revHexChar_lower_allowed (n : Nat) (h : n < 16) :
    isAllowedRevChar (Char.toLower (revHexChar n)) = true := by
  interval_cases n <;> decide

/-- Every character of a lower-cased CommitId hex display is allowed, for
byte-valid ids. -/
theorem mem_hexLower_allowed (id : List Nat) (hid : ∀ b ∈ id, b < 256) (c0 : Char)
    (hc : c0 ∈ (rustLower (hexEncode id)).data) : isAllowedRevChar c0 = true := by
  have hdata : (rustLower (hexEncode id)).data =
      ((id.map (fun b => [hexChar (b / 16), hexChar (b % 16)])).flatten).map
        Char.toLower := rfl
  rw [hdata, List.mem_map] at hc
  obtain ⟨c1, hc1, rfl⟩ := hc
  rw [List.mem_flatten] at hc1
  obtain ⟨l, hl, hc1⟩ := hc1
  rw [List.mem_map] at hl
  obtain ⟨b, hb, rfl⟩ := hl
  have hb256 := hid b hb
  rcases List.mem_cons.mp hc1 with rfl | hc1
  · exact hexChar_lower_allowed _ (by omega)
  · rcases List.mem_cons.mp hc1 with rfl | hc1
    · exact hexChar_lower_allowed _ (by omega)
    · exact absurd hc1 (List.not_mem_nil _)

/-- Every character of a lower-cased ChangeId reverse-hex display is
allowed, for byte-valid change ids. -/
theorem mem_revHexLower_allowed (cid : List Nat) (hid : ∀ b ∈ cid, b < 256) (c0 : Char)
    (hc : c0 ∈ (rustLower (reverseHex cid)).data) : isAllowedRevChar c0 = true := by
  have hdata : (rustLower (reverseHex cid)).data =
      ((cid.map (fun b => [revHexChar (b / 16), revHexChar (b % 16)])).flatten).map
        Char.toLower := rfl
  rw [hdata, List.mem_map] at hc
  obtain ⟨c1, hc1, rfl⟩ := hc
  rw [List.mem_flatten] at hc1
  obtain ⟨l, hl, hc1⟩ := hc1
  rw [List.mem_map] at hl
  obtain ⟨b, hb, rfl⟩ := hl
  have hb256 := hid b hb
  rcases List.mem_cons.mp hc1 with rfl | hc1
  · exact revHexChar_lower_allowed _ (by omega)
  · rcases List.mem_cons.mp hc1 with rfl | hc1
    · exact revHexChar_lower_allowed _ (by omega)
    · exact absurd hc1 (List.not_mem_nil _)

/-- A successful `get_commit` lookup means the id and its data are an entry
of the store. -/
theorem lookupStore_mem : ∀ (store : List (List Nat × CommitData)) (id : List Nat)
    (c : CommitData), lookupStore store id = some c → (id, c) ∈ store
  | [], _, _, h => by cases h
  | (k, v) :: rest, id, c, h => by
    by_cases hk : k = id
    · rw [lookupStore, if_pos hk] at h
      subst hk
      rw [Option.some.inj h]
      exact List.mem_cons_self _ _
    · rw [lookupStore, if_neg hk] at h
      exact List.mem_cons_of_mem _ (lookupStore_mem rest id c h)

/-- No commit of a byte-valid store can match a query containing a
disallowed character: its hex and reverse-hex displays consist of allowed
characters only, while the lower-cased query retains its disallowed one. -/
theorem matchB_false_of_bad (repo : RepoModel) (rev : String) (id : List Nat)
    (hvalid : ∀ kv ∈ repo.store, (∀ b ∈ kv.1, b < 256) ∧ (∀ b ∈ kv.2.changeId, b < 256))
    (hbad : ∃ c ∈ rev.data, isAllowedRevChar c = false) :
    matchB repo.store (rustLower rev) id = false := by
  unfold matchB
  rcases hl : lookupStore repo.store id with _ | c
  · rfl
  · obtain ⟨hid256, hcid256⟩ := hvalid (id, c) (lookupStore_mem repo.store id c hl)
    obtain ⟨c0, hc0, hc0f⟩ := hbad
    have hbadmem : Char.toLower c0 ∈ (rustLower rev).data := List.mem_map_of_mem _ hc0
    have hbadf : isAllowedRevChar (Char.toLower c0) = false := toLower_not_allowed c0 hc0f
    have hA : strStartsWith (rustLower (hexEncode id)) (rustLower rev) = false := by
      rcases hs : strStartsWith (rustLower (hexEncode id)) (rustLower rev) with _ | _
      · rfl
      · exfalso
        unfold strStartsWith at hs
        have hpre := (List.isPrefixOf_iff_prefix).mp hs
        have := mem_hexLower_allowed id hid256 _ (hpre.subset hbadmem)
        rw [hbadf] at this
        cases this
    have hB : strStartsWith (rustLower (reverseHex c.changeId)) (rustLower rev) = false := by
      rcases hs : strStartsWith (rustLower (reverseHex c.changeId)) (rustLower rev) with _ | _
      · rfl
      · exfalso
        unfold strStartsWith at hs
        have hpre := (List.isPrefixOf_iff_prefix).mp hs
        have := mem_revHexLower_allowed c.changeId hcid256 _ (hpre.subset hbadmem)
        rw [hbadf] at this
        cases this
    simp [hA, hB]

/-- C4, amended: `validate_revision_id` accepts exactly the non-empty
queries of allowed characters, rejecting the empty query and any query
with a disallowed character; but `resolve_revision_to_commit_id` never
invokes it and has no invalid-syntax error.  Instead, the empty query is
decoded by the hex fast path to the empty id and resolves `Ok` with no
traversal at all, while a query containing a disallowed character can
never hex-parse, so it proceeds to the prefix search, where (bytes being
byte-valid, as `u8` makes them in the source) no commit's hex or
reverse-hex display can match it, and a completed search fails with the
not-found error. -/
theorem claim4_resolution_never_invalid_syntax
    (repo : RepoModel) (rev : String) (fuel : Nat)
    (hvalid : ∀ kv ∈ repo.store, (∀ b ∈ kv.1, b < 256) ∧ (∀ b ∈ kv.2.changeId, b < 256)) :
    (∀ q : String,
      (validateRevisionId q = Except.ok () ↔
        q ≠ "" ∧ q.data.all isAllowedRevChar = true) ∧
      (validateRevisionId q = Except.error ValidationErr.emptyRevision ↔ q = "") ∧
      (validateRevisionId q = Except.error ValidationErr.invalidCharacters ↔
        q ≠ "" ∧ q.data.all isAllowedRevChar = false)) ∧
    (validateRevisionId "" = Except.error ValidationErr.emptyRevision ∧
      resolveRevisionToCommitId repo "" fuel = some (Except.ok [])) ∧
    ((∃ c ∈ rev.data, isAllowedRevChar c = false) →
      validateRevisionId rev = Except.error ValidationErr.invalidCharacters ∧
      tryFromHex rev.data = none ∧
      ∀ ms, searchFromHeads repo rev fuel = some ms →
        ms = [] ∧
        resolveRevisionToCommitId repo rev fuel =
          some (Except.error (ResolveErr.notFound rev))) := by
  have hval : ∀ q : String,
      (validateRevisionId q = Except.ok () ↔
        q ≠ "" ∧ q.data.all isAllowedRevChar = true) ∧
      (validateRevisionId q = Except.error ValidationErr.emptyRevision ↔ q = "") ∧
      (validateRevisionId q = Except.error ValidationErr.invalidCharacters ↔
        q ≠ "" ∧ q.data.all isAllowedRevChar = false) := by
    intro q
    unfold validateRevisionId
    by_cases h1 : q = "" <;> by_cases h2 : q.data.all isAllowedRevChar <;>
      simp [h1, h2]
  refine ⟨hval, ⟨rfl, rfl⟩, ?_⟩
  intro hbad
  have hne : rev ≠ "" := by
    intro he
    obtain ⟨c, hc, _⟩ := hbad
    rw [he] at hc
    exact absurd hc (List.not_mem_nil c)
  have hallf : rev.data.all isAllowedRevChar = false := by
    rw [List.all_eq_false]
    obtain ⟨c, hc, hcf⟩ := hbad
    exact ⟨c, hc, by simp [hcf]⟩
  have hhex : tryFromHex rev.data = none := by
    apply tryFromHex_none_of_bad
    obtain ⟨c, hc, hcf⟩ := hbad
    exact ⟨c, hc, hexVal_none_of_not_allowed c hcf⟩
  refine ⟨((hval rev).2.2).mpr ⟨hne, hallf⟩, hhex, ?_⟩
  intro ms hms
  have hempty : ms = [] := by
    obtain ⟨_, hiff⟩ := searchFromHeads_char repo rev fuel ms hms
    cases ms with
    | nil => rfl
    | cons a l =>
      exfalso
      have hm := ((hiff a).mp (List.mem_cons_self _ _)).2
      rw [matchB_false_of_bad repo rev a hvalid hbad] at hm
      cases hm
  subst hempty
  refine ⟨rfl, ?_⟩
  unfold resolveRevisionToCommitId
  rw [hhex, hms]
  simp

/-- Witness for C4's amended claim: the empty query resolves `Ok` through
the fast path, and the invalid query "a|b" ends in the search's not-found
error, with the validator rejecting both. -/
theorem claim4_resolution_never_invalid_syntax_wit :
    resolveRevisionToCommitId repoOne "" 1 = some (Except.ok []) ∧
    resolveRevisionToCommitId repoOne "a|b" 1 =
      some (Except.error (ResolveErr.notFound "a|b")) ∧
    validateRevisionId "a|b" = Except.error ValidationErr.invalidCharacters := by
  have h := claim4_resolution_never_invalid_syntax repoOne "a|b" 1 (by decide)
  have h3 := h.2.2 ⟨'|', by decide, by decide⟩
  exact ⟨h.2.1.2, (h3.2.2 [] (by decide)).2, h3.1⟩
